import Mathlib

/-!
# Verification of the Elasticsearch upgrade-monitoring client

A shallow embedding, in Lean 4, of the core logic of the
`elasticsearch-upgrade-monitoring` Chrome extension:

* `compareVersions` / `getHighestVersion` (src/utils/version.ts),
* `calculateUpgradeOrder` (src/utils/upgradeOrder.ts),
* `mergeHealthHistory` and the connection-management handlers of
  `MonitoringProvider` (src/context/MonitoringProvider.tsx),
* `nodesWithSequentialOrder` (src/App.tsx).

Modelling conventions:

* JavaScript numbers that are only ever produced by `parseFloat` over
  digit strings are modelled as rationals (`ℚ`); IEEE rounding is not
  modelled (none of the verified properties depend on it).
* ISO timestamp strings of health rows are modelled by their parsed
  epoch value (`Nat`): the code keys rows by the timestamp string and
  sorts by `new Date(ts).getTime()`; distinct rows are assumed to carry
  distinct timestamps, as the spec's data model states.
* `Array.prototype.sort` with a consistent comparator `c` is modelled by
  `List.insertionSort` with the relation `fun a b => c a b ≤ 0`, which is
  the stable sort by `c` — the unique output the ECMAScript spec allows.
* `Array.prototype.slice(-40)` on a list `l` is `l.drop (l.length - 40)`.
-/

/-! ## Version comparison (src/utils/version.ts) -/

/-- `split('.')` over the character list of a string: the exact semantics of
`String.prototype.split` with a one-character separator (`"" ↦ [""]`,
`"8." ↦ ["8", ""]`). Implemented structurally so that concrete inputs
evaluate inside the kernel. -/
def splitOnDot : List Char → List (List Char)
  | [] => [[]]
  | c :: rest =>
    match splitOnDot rest with
    | [] => [[]]
    | s :: ss => if c = '.' then [] :: s :: ss else (c :: s) :: ss

/-- Decimal value of a digit string. -/
def digitsVal (cs : List Char) : Nat := cs.foldl (fun n c => n * 10 + (c.toNat - 48)) 0

/-- One dot-separated segment, as read by `map(Number)` combined with the
`parts[i] || 0` fallback of `compareVersions`: a decimal-digit segment
denotes its numeric value; the empty segment (`Number('') = 0`) and any
unparseable segment (`NaN`, felled by `|| 0`) both read as `0`. -/
def parseSegment (cs : List Char) : Nat :=
  if cs ≠ [] ∧ cs.all Char.isDigit then digitsVal cs else 0

/-- Trailing segments of `v2` compared against the exhausted (all-zero)
remainder of `v1` inside the `compareVersions` loop. -/
def cmpTrailing : List Nat → Int
  | [] => 0
  | y :: ys => if 0 < y then -1 else cmpTrailing ys

/-- The index loop of `compareVersions`: positions `0 ≤ i < maxLength`, each
side read with the `|| 0` out-of-range fallback, early return on the first
strict inequality. -/
def compareSegs : List Nat → List Nat → Int
  | [], ys => cmpTrailing ys
  | x :: xs, [] => if 0 < x then 1 else compareSegs xs []
  | x :: xs, y :: ys => if x < y then -1 else if y < x then 1 else compareSegs xs ys

/-- The parsed segment list of a version string:
`v.split('.').map(Number)` with the `|| 0` fallback folded in. -/
def segsOf (v : String) : List Nat := (splitOnDot v.toList).map parseSegment

/-- `compareVersions` from src/utils/version.ts: split both strings on `'.'`,
read each segment numerically, compare position by position with missing
segments as `0`; returns -1 / 0 / 1. -/
def compareVersions (v1 v2 : String) : Int :=
  compareSegs (segsOf v1) (segsOf v2)

/-- `getHighestVersion` from src/utils/version.ts: `reduce` over the array,
keeping the current element whenever it compares strictly greater. -/
def getHighestVersion (versions : List String) : Option String :=
  match versions with
  | [] => none
  | v :: vs =>
    some (vs.foldl (fun highest current =>
      if 0 < compareVersions current highest then current else highest) v)

theorem cmpTrailing_eq_zero_of_all_zero {ys : List Nat} (h : ∀ y ∈ ys, y = 0) :
    cmpTrailing ys = 0 := by
  induction ys with
  | nil => rfl
  | cons y ys ih =>
    have hy := h y (by simp)
    simp [cmpTrailing, hy]
    exact ih fun z hz => h z (by simp [hz])

theorem compareSegs_eq_zero_of_getD_eq {xs ys : List Nat}
    (h : ∀ i, xs.getD i 0 = ys.getD i 0) : compareSegs xs ys = 0 := by
  induction xs generalizing ys with
  | nil =>
    have hz : ∀ y ∈ ys, y = 0 := by
      intro y hy
      obtain ⟨i, hi, hget⟩ := List.mem_iff_getElem.mp hy
      have := h i
      simp [List.getD_eq_getElem?_getD, List.getElem?_eq_getElem hi, hget] at this
      omega
    exact cmpTrailing_eq_zero_of_all_zero hz
  | cons x xs ih =>
    cases ys with
    | nil =>
      have hx : x = 0 := by have := h 0; simpa using this
      have hxs : ∀ i, xs.getD i 0 = ([] : List Nat).getD i 0 := by
        intro i; have := h (i + 1); simpa using this
      simp [compareSegs, hx]
      exact ih hxs
    | cons y ys =>
      have h0 : x = y := by have := h 0; simpa using this
      have ht : ∀ i, xs.getD i 0 = ys.getD i 0 := by
        intro i; have := h (i + 1); simpa using this
      subst h0
      simp [compareSegs]
      exact ih ht

theorem compareSegs_mem : ∀ xs ys : List Nat,
    compareSegs xs ys = -1 ∨ compareSegs xs ys = 0 ∨ compareSegs xs ys = 1 := by
  intro xs
  induction xs with
  | nil =>
    intro ys
    induction ys with
    | nil => simp [compareSegs, cmpTrailing]
    | cons y ys ih =>
      by_cases hy : 0 < y <;> simp [compareSegs, cmpTrailing, hy] at ih ⊢
      exact ih
  | cons x xs ih =>
    intro ys
    cases ys with
    | nil =>
      by_cases hx : 0 < x <;> simp [compareSegs, hx]
      exact ih []
    | cons y ys =>
      rcases Nat.lt_trichotomy x y with h | h | h
      · simp [compareSegs, h]
      · simp [compareSegs, h, Nat.lt_irrefl]
        exact ih ys
      · simp [compareSegs, Nat.lt_asymm h, h]

/-- C3: `compareVersions` returns 0 on every pair of version strings whose
segment lists agree once missing trailing segments are read as zero
(e.g. "8.15" vs "8.15.0"), and on every pair it returns exactly one of
-1, 0, or 1. -/
theorem compareVersions_equal_padded_and_trichotomy (v1 v2 : String) :
    ((∀ i, (segsOf v1).getD i 0 = (segsOf v2).getD i 0) → compareVersions v1 v2 = 0) ∧
    (compareVersions v1 v2 = -1 ∨ compareVersions v1 v2 = 0 ∨ compareVersions v1 v2 = 1) := by
  constructor
  · intro h
    exact compareSegs_eq_zero_of_getD_eq h
  · exact compareSegs_mem _ _

/-- Witness for C3 at the spec's own example "8.15" vs "8.15.0". -/
theorem compareVersions_equal_padded_witness : compareVersions "8.15" "8.15.0" = 0 := by
  refine (compareVersions_equal_padded_and_trichotomy "8.15" "8.15.0").1 ?_
  intro i
  have h1 : segsOf "8.15" = [8, 15] := by decide
  have h2 : segsOf "8.15.0" = [8, 15, 0] := by decide
  rw [h1, h2]
  match i with
  | 0 => rfl
  | 1 => rfl
  | 2 => rfl
  | Nat.succ (Nat.succ (Nat.succ n)) => simp [List.getD]

/-! ## Node records and upgrade tiers (src/utils/upgradeOrder.ts) -/

/-- `NodeInfo` from src/types/api.ts. `upgradeOrder` is `number | null` in TS
and is always assigned by `getNodes` before any consumer reads it, so the
TS-level `undefined` state is not modelled. -/
structure NodeInfo where
  nodeRole : String
  name : String
  ip : Option String
  version : String
  uptime : String
  upgradeOrder : Option Nat
deriving DecidableEq

/-- `role.includes(c)` for a one-character needle: membership of that
character in the role string. Structural so concrete roles evaluate in the
kernel. -/
def roleHas (role : String) (c : Char) : Bool := role.toList.contains c

/-- JS truthiness of the strings involved in the `highestVersion && node.version`
guard: a present, non-empty string. -/
def strTruthy : Option String → Bool
  | none => false
  | some s => !s.isEmpty

/-- `calculateUpgradeOrder` from src/utils/upgradeOrder.ts: `null` when the
node's version compares at-or-above the highest version (both operands
truthy), else the first matching role rule, falling back to tier 8. -/
def calculateUpgradeOrder (node : NodeInfo) (highestVersion : Option String) : Option Nat :=
  if strTruthy highestVersion ∧ strTruthy (some node.version) then
    if 0 ≤ compareVersions node.version (highestVersion.getD "") then none
    else some (roleTier node.nodeRole)
  else some (roleTier node.nodeRole)
where
  /-- The role-letter cascade of `calculateUpgradeOrder` (the role string is
  `node.nodeRole || ''`, identical to `node.nodeRole` since `''` is its own
  fallback). -/
  roleTier (role : String) : Nat :=
    if roleHas role 'f' then 1
    else if roleHas role 'c' then 2
    else if roleHas role 'w' then 3
    else if roleHas role 'h' then 4
    else if roleHas role 'd' ∨ roleHas role 's' then 5
    else if roleHas role 'l' ∨ roleHas role 'i' ∨ roleHas role 't' ∨
            roleHas role 'r' ∨ roleHas role 'v' then 6
    else if roleHas role 'm' then 7
    else 8

/-- The ordered tier rule table of the spec (§4.2): each rule is a set of
role markers and the tier it assigns; the first rule one of whose markers
occurs in the role string wins. -/
def tierRules : List (List Char × Nat) :=
  [(['f'], 1), (['c'], 2), (['w'], 3), (['h'], 4),
   (['d', 's'], 5), (['l', 'i', 't', 'r', 'v'], 6), (['m'], 7)]

/-- Tier assignment as the spec words it: already-upgraded nodes get no tier;
otherwise the first matching rule of `tierRules` applies, with fallback 8. -/
def specUpgradeTier (alreadyUpgraded : Bool) (role : String) : Option Nat :=
  if alreadyUpgraded then none
  else some ((tierRules.find? (fun rule => rule.1.any (roleHas role ·))
    |>.map Prod.snd).getD 8)

/-- The role cascade of the code equals the spec's first-match rule table. -/
theorem roleTier_eq_specRules (role : String) :
    calculateUpgradeOrder.roleTier role =
      ((tierRules.find? (fun rule => rule.1.any (roleHas role ·))
        |>.map Prod.snd).getD 8) := by
  simp only [calculateUpgradeOrder.roleTier, tierRules, List.find?, List.any_cons,
    List.any_nil, Bool.or_false]
  split_ifs <;> (try casesm* _ ∨ _) <;> simp_all

/-- C6: on every node with a non-empty version and every well-formed
highest-version baseline (absent, or a non-empty version string),
`calculateUpgradeOrder` agrees with the spec's ordered first-match-wins
rule table: at-or-above the highest version → null, then
f→1, c→2, w→3, h→4, d/s→5, l/i/t/r/v→6, m→7, fallback 8. -/
theorem calculateUpgradeOrder_matches_spec_rules (node : NodeInfo) (hv : Option String)
    (hver : node.version ≠ "") (hhv : ∀ h, hv = some h → h ≠ "") :
    calculateUpgradeOrder node hv =
      specUpgradeTier
        (match hv with
         | none => false
         | some h => 0 ≤ compareVersions node.version h)
        node.nodeRole := by
  cases hv with
  | none =>
    simp [calculateUpgradeOrder, specUpgradeTier, strTruthy, roleTier_eq_specRules]
  | some h =>
    have hh : h ≠ "" := hhv h rfl
    have h1 : strTruthy (some h) = true := by
      simp only [strTruthy, Bool.not_eq_true']
      rw [Bool.eq_false_iff]
      intro he
      exact hh ((String.isEmpty_iff h).mp he)
    have h2 : strTruthy (some node.version) = true := by
      simp only [strTruthy, Bool.not_eq_true']
      rw [Bool.eq_false_iff]
      intro he
      exact hver ((String.isEmpty_iff node.version).mp he)
    simp only [calculateUpgradeOrder, specUpgradeTier, h1, h2, Option.getD_some, true_and]
    by_cases hc : 0 ≤ compareVersions node.version h
    · simp [hc]
    · simp [hc, roleTier_eq_specRules]

/-- Witness for C6: a hot-role node at "8.15.0" against baseline "8.19.0". -/
theorem calculateUpgradeOrder_matches_spec_rules_witness :
    ("8.15.0" : String) ≠ "" ∧
    calculateUpgradeOrder ⟨"h", "node-1", none, "8.15.0", "1h", none⟩ (some "8.19.0") =
      specUpgradeTier (decide (0 ≤ compareVersions "8.15.0" "8.19.0")) "h" ∧
    calculateUpgradeOrder ⟨"h", "node-1", none, "8.15.0", "1h", none⟩ (some "8.19.0") = some 4 :=
  ⟨by decide,
   calculateUpgradeOrder_matches_spec_rules ⟨"h", "node-1", none, "8.15.0", "1h", none⟩
     (some "8.19.0") (by decide) (by intro x hx; cases hx; decide),
   by decide⟩

/-! ## Health history merging (src/context/MonitoringProvider.tsx) -/

/-- `CatHealthRow` (src/types/api.ts), reduced to the fields the merge logic
distinguishes: the timestamp key (modelled by its parsed epoch value, see the
header) and representative payload columns. -/
structure CatHealthRow where
  timestamp : Nat
  status : String
  shards : String
  pendingTasks : String
deriving DecidableEq

/-- One step of the `Map`-building loop of `mergeHealthHistory`:
`merged.set(item.timestamp, item)` on an insertion-ordered map — an existing
key keeps its position and takes the new row, a fresh key is appended. -/
def insertRow (m : List CatHealthRow) (item : CatHealthRow) : List CatHealthRow :=
  if m.any (fun r => r.timestamp == item.timestamp) then
    m.map (fun r => if r.timestamp = item.timestamp then item else r)
  else m ++ [item]

/-- The insertion-ordered `Map` of `mergeHealthHistory` after feeding it
`[...prev, ...incoming]`, read back with `Array.from(merged.values())`. -/
def dedupByTimestamp (rows : List CatHealthRow) : List CatHealthRow :=
  rows.foldl insertRow []

/-- The sort relation of `mergeHealthHistory`'s comparator
`(a, b) => time(a) - time(b)`: non-positive comparator value. -/
def rowLe (a b : CatHealthRow) : Prop := a.timestamp ≤ b.timestamp

/-- Strict timestamp order on rows. -/
def rowLt (a b : CatHealthRow) : Prop := a.timestamp < b.timestamp

instance : DecidableRel rowLe := fun a b =>
  inferInstanceAs (Decidable (a.timestamp ≤ b.timestamp))

instance : DecidableRel rowLt := fun a b =>
  inferInstanceAs (Decidable (a.timestamp < b.timestamp))

instance : IsTotal CatHealthRow rowLe := ⟨fun a b => Nat.le_total a.timestamp b.timestamp⟩

instance : IsTrans CatHealthRow rowLe := ⟨fun _ _ _ h1 h2 => Nat.le_trans h1 h2⟩

instance : IsAntisymm CatHealthRow rowLt :=
  ⟨fun _ _ h1 h2 => absurd (Nat.lt_trans h1 h2) (Nat.lt_irrefl _)⟩

/-- `mergeHealthHistory` from src/context/MonitoringProvider.tsx: key
`[...prev, ...incoming]` by timestamp into an insertion-ordered map
(last write wins), sort the values ascending by timestamp, keep the most
recent 40 (`slice(-40)`). -/
def mergeHealthHistory (prev incoming : List CatHealthRow) : List CatHealthRow :=
  let merged := dedupByTimestamp (prev ++ incoming)
  let sorted := List.insertionSort rowLe merged
  sorted.drop (sorted.length - 40)

/-- The timestamps of a row list. -/
def keysOf (l : List CatHealthRow) : List Nat := l.map (·.timestamp)

/-- The last row of `l` carrying timestamp `t` — the row a last-write-wins
merge keeps for that key. -/
def findLastTs : List CatHealthRow → Nat → Option CatHealthRow
  | [], _ => none
  | r :: rest, t =>
    match findLastTs rest t with
    | some x => some x
    | none => if r.timestamp = t then some r else none

/-- The first row of `l` carrying timestamp `t` (the `Map` read-back view). -/
def lookupTs (l : List CatHealthRow) (t : Nat) : Option CatHealthRow :=
  l.find? (fun r => r.timestamp == t)

theorem keysOf_append (l1 l2 : List CatHealthRow) :
    keysOf (l1 ++ l2) = keysOf l1 ++ keysOf l2 := by
  simp [keysOf]

theorem mem_keysOf {l : List CatHealthRow} {t : Nat} :
    t ∈ keysOf l ↔ ∃ r ∈ l, r.timestamp = t := by
  simp [keysOf, List.mem_map]

theorem any_ts_eq_true_iff (m : List CatHealthRow) (t : Nat) :
    (m.any fun r => r.timestamp == t) = true ↔ t ∈ keysOf m := by
  rw [List.any_eq_true, mem_keysOf]
  simp

theorem keysOf_insertRow (m : List CatHealthRow) (x : CatHealthRow) :
    keysOf (insertRow m x) =
      if x.timestamp ∈ keysOf m then keysOf m else keysOf m ++ [x.timestamp] := by
  unfold insertRow
  by_cases h : x.timestamp ∈ keysOf m
  · rw [if_pos ((any_ts_eq_true_iff m x.timestamp).mpr h), if_pos h]
    simp only [keysOf, List.map_map]
    apply List.map_congr_left
    intro r _
    by_cases hrt : r.timestamp = x.timestamp <;> simp [Function.comp, hrt]
  · have hany : (m.any fun r => r.timestamp == x.timestamp) = false := by
      rw [Bool.eq_false_iff]
      intro hc
      exact h ((any_ts_eq_true_iff m x.timestamp).mp hc)
    rw [hany, if_neg (by decide), if_neg h]
    exact keysOf_append m [x]

theorem find_mapReplace_self (x : CatHealthRow) :
    ∀ m : List CatHealthRow, (m.any fun r => r.timestamp == x.timestamp) = true →
      List.find? (fun r => r.timestamp == x.timestamp)
        (m.map fun r => if r.timestamp = x.timestamp then x else r) = some x
  | [], h => by simp at h
  | r :: rest, h => by
    by_cases hrt : r.timestamp = x.timestamp
    · simp only [List.map_cons, if_pos hrt]
      exact List.find?_cons_of_pos _ (by simp)
    · rw [List.any_cons] at h
      simp only [Bool.or_eq_true, beq_iff_eq] at h
      rcases h with h | h
      · exact absurd h hrt
      · simp only [List.map_cons, if_neg hrt]
        rw [List.find?_cons_of_neg _ (by simpa using hrt)]
        exact find_mapReplace_self x rest h

theorem find_mapReplace_ne (x : CatHealthRow) (t : Nat) (h : t ≠ x.timestamp) :
    ∀ m : List CatHealthRow,
      List.find? (fun r => r.timestamp == t)
        (m.map fun r => if r.timestamp = x.timestamp then x else r) =
      List.find? (fun r => r.timestamp == t) m
  | [] => by simp
  | r :: rest => by
    by_cases hrt : r.timestamp = x.timestamp
    · simp only [List.map_cons, if_pos hrt]
      rw [List.find?_cons_of_neg _ (by simp; exact fun he => h he.symm),
          List.find?_cons_of_neg _ (by simp [hrt]; exact fun he => h he.symm)]
      exact find_mapReplace_ne x t h rest
    · simp only [List.map_cons, if_neg hrt]
      by_cases hrteq : r.timestamp = t
      · rw [List.find?_cons_of_pos _ (by simp [hrteq]),
            List.find?_cons_of_pos _ (by simp [hrteq])]
      · rw [List.find?_cons_of_neg _ (by simp [hrteq]),
            List.find?_cons_of_neg _ (by simp [hrteq])]
        exact find_mapReplace_ne x t h rest

theorem lookupTs_insertRow_self (m : List CatHealthRow) (x : CatHealthRow) :
    lookupTs (insertRow m x) x.timestamp = some x := by
  unfold insertRow lookupTs
  by_cases hany : (m.any fun r => r.timestamp == x.timestamp) = true
  · rw [if_pos hany]
    exact find_mapReplace_self x m hany
  · have hany' : (m.any fun r => r.timestamp == x.timestamp) = false :=
      Bool.eq_false_iff.mpr hany
    rw [hany', if_neg (by decide), List.find?_append]
    have h1 : List.find? (fun r => r.timestamp == x.timestamp) m = none := by
      rw [List.find?_eq_none]
      intro a ha
      rw [List.any_eq_false] at hany'
      exact hany' a ha
    simp [h1]

theorem lookupTs_insertRow_ne (m : List CatHealthRow) (x : CatHealthRow) (t : Nat)
    (h : t ≠ x.timestamp) : lookupTs (insertRow m x) t = lookupTs m t := by
  unfold insertRow lookupTs
  by_cases hany : (m.any fun r => r.timestamp == x.timestamp) = true
  · rw [if_pos hany]
    exact find_mapReplace_ne x t h m
  · have hany' : (m.any fun r => r.timestamp == x.timestamp) = false :=
      Bool.eq_false_iff.mpr hany
    rw [hany', if_neg (by decide), List.find?_append]
    have h2 : List.find? (fun r => r.timestamp == t) [x] = none := by
      have hb : (x.timestamp == t) = false := beq_eq_false_iff_ne.mpr (Ne.symm h)
      simp [List.find?, hb]
    rw [h2]
    simp

theorem findLastTs_append (l1 l2 : List CatHealthRow) (t : Nat) :
    findLastTs (l1 ++ l2) t = (findLastTs l2 t).or (findLastTs l1 t) := by
  induction l1 with
  | nil => simp [findLastTs]
  | cons r rest ih =>
    simp only [List.cons_append, findLastTs, List.append_eq]
    rw [ih]
    cases h2 : findLastTs l2 t <;> cases hr : findLastTs rest t <;> simp [Option.or]

theorem findLastTs_isSome_iff (l : List CatHealthRow) (t : Nat) :
    (findLastTs l t).isSome = true ↔ t ∈ keysOf l := by
  induction l with
  | nil => simp [findLastTs, keysOf]
  | cons r rest ih =>
    simp only [findLastTs]
    cases hr : findLastTs rest t with
    | some x =>
      simp only [Option.isSome_some, true_iff]
      have : t ∈ keysOf rest := ih.mp (by simp [hr])
      simp [keysOf] at this ⊢
      tauto
    | none =>
      rw [hr] at ih
      simp only [Option.isSome_none, Bool.false_eq_true, false_iff] at ih
      by_cases hrt : r.timestamp = t
      · simp [hrt, keysOf]
      · simp only [if_neg hrt, Option.isSome_none, Bool.false_eq_true, false_iff]
        simp [keysOf, hrt] at ih ⊢
        exact ⟨fun he => hrt he.symm, ih⟩

theorem findLastTs_eq_some_mem {l : List CatHealthRow} {t : Nat} {r : CatHealthRow}
    (h : findLastTs l t = some r) : r ∈ l ∧ r.timestamp = t := by
  induction l with
  | nil => simp [findLastTs] at h
  | cons x rest ih =>
    simp only [findLastTs] at h
    cases hr : findLastTs rest t with
    | some y =>
      rw [hr] at h
      obtain ⟨h1, h2⟩ := ih (hr.trans h)
      exact ⟨by simp [h1], h2⟩
    | none =>
      rw [hr] at h
      by_cases hxt : x.timestamp = t
      · rw [if_pos hxt] at h
        cases h
        exact ⟨by simp, hxt⟩
      · rw [if_neg hxt] at h
        cases h

theorem lookupTs_foldl_insertRow (l : List CatHealthRow) :
    ∀ (acc : List CatHealthRow) (t : Nat),
      lookupTs (l.foldl insertRow acc) t = (findLastTs l t).or (lookupTs acc t) := by
  induction l with
  | nil => intro acc t; simp [findLastTs, Option.or]
  | cons x rest ih =>
    intro acc t
    rw [List.foldl_cons, ih]
    cases hr : findLastTs rest t with
    | some y => simp [findLastTs, hr, Option.or]
    | none =>
      simp only [findLastTs, hr, Option.or_none]
      by_cases hxt : x.timestamp = t
      · rw [if_pos hxt]
        subst hxt
        simp [lookupTs_insertRow_self acc x, Option.or]
      · rw [if_neg hxt]
        simp only [Option.or]
        exact lookupTs_insertRow_ne acc x t fun he => hxt he.symm

theorem keysOf_foldl_insertRow_nodup (l : List CatHealthRow) :
    ∀ acc : List CatHealthRow, (keysOf acc).Nodup → (keysOf (l.foldl insertRow acc)).Nodup := by
  induction l with
  | nil => intro acc h; exact h
  | cons x rest ih =>
    intro acc h
    rw [List.foldl_cons]
    apply ih
    rw [keysOf_insertRow]
    by_cases hx : x.timestamp ∈ keysOf acc
    · rwa [if_pos hx]
    · rw [if_neg hx]
      simpa [List.nodup_append] using ⟨h, hx⟩

theorem keysOf_dedup_nodup (l : List CatHealthRow) :
    (keysOf (dedupByTimestamp l)).Nodup :=
  keysOf_foldl_insertRow_nodup l [] (by simp [keysOf])

theorem lookupTs_dedup (l : List CatHealthRow) (t : Nat) :
    lookupTs (dedupByTimestamp l) t = findLastTs l t := by
  unfold dedupByTimestamp
  rw [lookupTs_foldl_insertRow]
  simp [lookupTs, Option.or]
  cases findLastTs l t <;> simp [Option.or]

theorem lookupTs_of_mem {l : List CatHealthRow} (hn : (keysOf l).Nodup)
    {r : CatHealthRow} (hr : r ∈ l) : lookupTs l r.timestamp = some r := by
  induction l with
  | nil => simp at hr
  | cons x rest ih =>
    rcases List.mem_cons.mp hr with he | hm
    · subst he
      exact List.find?_cons_of_pos _ (by simp)
    · have hne : x.timestamp ≠ r.timestamp := by
        simp only [keysOf, List.map_cons, List.nodup_cons] at hn
        intro he
        exact hn.1 (he ▸ (List.mem_map.mpr ⟨r, hm, rfl⟩))
      rw [lookupTs, List.find?_cons_of_neg _ (by simpa using hne)]
      have hn' : (keysOf rest).Nodup := by
        simp only [keysOf, List.map_cons, List.nodup_cons] at hn
        exact hn.2
      exact ih hn' hm

theorem lookupTs_eq_some {l : List CatHealthRow} {t : Nat} {r : CatHealthRow}
    (h : lookupTs l t = some r) : r ∈ l ∧ r.timestamp = t :=
  ⟨List.mem_of_find?_eq_some h, by simpa using List.find?_some h⟩

/-- Membership characterisation of the insertion-ordered map: a row survives
deduplication iff it is the last row of the input carrying its timestamp. -/
theorem mem_dedup_iff (l : List CatHealthRow) (r : CatHealthRow) :
    r ∈ dedupByTimestamp l ↔ findLastTs l r.timestamp = some r := by
  constructor
  · intro h
    rw [← lookupTs_dedup]
    exact lookupTs_of_mem (keysOf_dedup_nodup l) h
  · intro h
    rw [← lookupTs_dedup] at h
    exact (lookupTs_eq_some h).1

theorem mem_keysOf_dedup (l : List CatHealthRow) (t : Nat) :
    t ∈ keysOf (dedupByTimestamp l) ↔ t ∈ keysOf l := by
  constructor
  · intro h
    obtain ⟨r, hr, ht⟩ := mem_keysOf.mp h
    have hf := (mem_dedup_iff l r).mp hr
    exact mem_keysOf.mpr ⟨r, (findLastTs_eq_some_mem hf).1, ht⟩
  · intro h
    have hs : (findLastTs l t).isSome = true := (findLastTs_isSome_iff l t).mpr h
    cases hf : findLastTs l t with
    | none => rw [hf] at hs; simp at hs
    | some r =>
      obtain ⟨hm, ht⟩ := findLastTs_eq_some_mem hf
      have hr : r ∈ dedupByTimestamp l := (mem_dedup_iff l r).mpr (by rwa [ht])
      exact mem_keysOf.mpr ⟨r, hr, ht⟩

theorem findLastTs_of_mem_nodup {M : List CatHealthRow} (hn : (keysOf M).Nodup)
    {m : CatHealthRow} (hm : m ∈ M) : findLastTs M m.timestamp = some m := by
  induction M with
  | nil => simp at hm
  | cons x rest ih =>
    simp only [keysOf, List.map_cons, List.nodup_cons] at hn
    rcases List.mem_cons.mp hm with he | hmem
    · subst he
      have hnone : findLastTs rest m.timestamp = none := by
        cases hf : findLastTs rest m.timestamp with
        | none => rfl
        | some y =>
          obtain ⟨hy, hty⟩ := findLastTs_eq_some_mem hf
          exact absurd (hty ▸ List.mem_map.mpr ⟨y, hy, rfl⟩) hn.1
      simp [findLastTs, hnone]
    · have := ih hn.2 hmem
      simp [findLastTs, this]

theorem pairwise_lt_of_sorted_nodup {l : List CatHealthRow}
    (hs : List.Sorted rowLe l) (hn : (keysOf l).Nodup) : List.Pairwise rowLt l := by
  have hne : List.Pairwise (fun a b : CatHealthRow => a.timestamp ≠ b.timestamp) l :=
    List.pairwise_map.mp hn
  exact (hs.and hne).imp fun h => Nat.lt_of_le_of_ne h.1 h.2

theorem rows_nodup_of_keys_nodup {l : List CatHealthRow} (hn : (keysOf l).Nodup) :
    l.Nodup := List.Nodup.of_map _ hn

theorem keysOf_sublist {l1 l2 : List CatHealthRow} (h : l1.Sublist l2) :
    (keysOf l1).Sublist (keysOf l2) := h.map _

theorem keysOf_perm {l1 l2 : List CatHealthRow} (h : l1.Perm l2) :
    (keysOf l1).Perm (keysOf l2) := h.map _

/-- Absorption: merging `B` into a state `M` that already reflects `B`
(strictly sorted, carrying `B`'s last row for every shared key, every
unrepresented `B`-key strictly older than all of `M`, at the cap whenever an
unrepresented `B`-key exists) returns `M` unchanged. -/
theorem merge_absorb (M B : List CatHealthRow)
    (h1 : List.Pairwise rowLt M)
    (h2 : ∀ m ∈ M, m.timestamp ∈ keysOf B → findLastTs B m.timestamp = some m)
    (h3 : ∀ b ∈ B, b.timestamp ∉ keysOf M → ∀ m ∈ M, b.timestamp < m.timestamp)
    (h4 : M.length ≤ 40)
    (h5 : (∃ b ∈ B, b.timestamp ∉ keysOf M) → M.length = 40) :
    mergeHealthHistory M B = M := by
  classical
  have hMkeys : (keysOf M).Nodup := by
    have : List.Pairwise (fun a b : CatHealthRow => a.timestamp ≠ b.timestamp) M :=
      h1.imp fun h => Nat.ne_of_lt h
    exact List.pairwise_map.mpr this
  set D := dedupByTimestamp (M ++ B) with hD
  have hDkeys : (keysOf D).Nodup := keysOf_dedup_nodup (M ++ B)
  have hDnodup : D.Nodup := rows_nodup_of_keys_nodup hDkeys
  set p : CatHealthRow → Bool := fun r => decide (r.timestamp ∈ keysOf M) with hp
  set R := D.filter (fun r => !p r) with hR
  set MM := D.filter p with hMM
  have hsplit : (MM ++ R).Perm D := List.filter_append_perm p D
  -- rows of D with a key of M are exactly the rows of M
  have hMMiff : ∀ r, r ∈ MM ↔ r ∈ M := by
    intro r
    constructor
    · intro hr
      obtain ⟨hrD, hrP⟩ := List.mem_filter.mp hr
      have hkey : r.timestamp ∈ keysOf M := by simpa [hp] using hrP
      have hlast : findLastTs (M ++ B) r.timestamp = some r := (mem_dedup_iff _ r).mp hrD
      rw [findLastTs_append] at hlast
      obtain ⟨m, hmM, hmt⟩ := mem_keysOf.mp hkey
      by_cases hb : r.timestamp ∈ keysOf B
      · have := h2 m hmM (hmt ▸ hb)
        rw [hmt] at this
        rw [this] at hlast
        simp only [Option.or] at hlast
        cases hlast
        exact hmM
      · have hnone : findLastTs B r.timestamp = none := by
          cases hf : findLastTs B r.timestamp with
          | none => rfl
          | some y =>
            exact absurd ((findLastTs_isSome_iff B r.timestamp).mp (by simp [hf])) hb
        rw [hnone] at hlast
        simp only [Option.or] at hlast
        exact (findLastTs_eq_some_mem hlast).1
    · intro hrM
      have hkey : r.timestamp ∈ keysOf M := List.mem_map.mpr ⟨r, hrM, rfl⟩
      refine List.mem_filter.mpr ⟨?_, by simpa [hp] using hkey⟩
      rw [mem_dedup_iff, findLastTs_append]
      by_cases hb : r.timestamp ∈ keysOf B
      · rw [h2 r hrM hb]
        simp [Option.or]
      · have hnone : findLastTs B r.timestamp = none := by
          cases hf : findLastTs B r.timestamp with
          | none => rfl
          | some y =>
            exact absurd ((findLastTs_isSome_iff B r.timestamp).mp (by simp [hf])) hb
        rw [hnone]
        simp only [Option.or]
        exact findLastTs_of_mem_nodup hMkeys hrM
  have hMMperm : MM.Perm M := by
    refine (List.perm_ext_iff_of_nodup ?_ ?_).mpr hMMiff
    · exact List.Nodup.sublist (List.filter_sublist D) hDnodup
    · exact rows_nodup_of_keys_nodup hMkeys
  have hRfacts : ∀ r ∈ R, r.timestamp ∉ keysOf M ∧ r ∈ B := by
    intro r hr
    obtain ⟨hrD, hrP⟩ := List.mem_filter.mp hr
    have hkey : r.timestamp ∉ keysOf M := by simpa [hp] using hrP
    refine ⟨hkey, ?_⟩
    have hlast := (mem_dedup_iff _ r).mp hrD
    rw [findLastTs_append] at hlast
    cases hf : findLastTs B r.timestamp with
    | some y =>
      rw [hf] at hlast
      simp only [Option.or] at hlast
      cases hlast
      exact (findLastTs_eq_some_mem hf).1
    | none =>
      rw [hf] at hlast
      simp only [Option.or] at hlast
      exact absurd (List.mem_map.mpr ⟨r, (findLastTs_eq_some_mem hlast).1, rfl⟩) hkey
  have hRlt : ∀ r ∈ R, ∀ m ∈ M, rowLt r m := by
    intro r hr m hm
    obtain ⟨hkey, hrB⟩ := hRfacts r hr
    exact h3 r hrB hkey m hm
  set S1 := List.insertionSort rowLe D with hS1
  set SR := List.insertionSort rowLe R with hSRdef
  have hS1perm : S1.Perm D := List.perm_insertionSort rowLe D
  have hS1keys : (keysOf S1).Nodup := ((keysOf_perm hS1perm).nodup_iff).mpr hDkeys
  have hS1lt : List.Pairwise rowLt S1 :=
    pairwise_lt_of_sorted_nodup (List.sorted_insertionSort rowLe D) hS1keys
  have hRkeys : (keysOf R).Nodup :=
    List.Nodup.sublist (keysOf_sublist (List.filter_sublist D)) hDkeys
  have hSRperm : SR.Perm R := List.perm_insertionSort rowLe R
  have hSRkeys : (keysOf SR).Nodup := ((keysOf_perm hSRperm).nodup_iff).mpr hRkeys
  have hSRlt : List.Pairwise rowLt SR :=
    pairwise_lt_of_sorted_nodup (List.sorted_insertionSort rowLe R) hSRkeys
  have hTlt : List.Pairwise rowLt (SR ++ M) :=
    List.pairwise_append.mpr ⟨hSRlt, h1, fun a ha b hb => hRlt a (hSRperm.subset ha) b hb⟩
  have hTperm : S1.Perm (SR ++ M) :=
    hS1perm.trans (hsplit.symm.trans ((hMMperm.append_right R).trans
      (List.perm_append_comm.trans (hSRperm.symm.append_right M))))
  have hT : S1 = SR ++ M := List.eq_of_perm_of_sorted (r := rowLt) hTperm hS1lt hTlt
  have hfin : mergeHealthHistory M B = (SR ++ M).drop ((SR ++ M).length - 40) := by
    show (List.insertionSort rowLe (dedupByTimestamp (M ++ B))).drop
      ((List.insertionSort rowLe (dedupByTimestamp (M ++ B))).length - 40) = _
    rw [← hD, ← hS1, hT]
  by_cases hRnil : R = []
  · have hSRnil : SR = [] := by rw [hSRdef, hRnil]; rfl
    rw [hfin, hSRnil, List.nil_append, Nat.sub_eq_zero_of_le h4, List.drop_zero]
  · obtain ⟨r, hr⟩ := List.exists_mem_of_ne_nil R hRnil
    obtain ⟨hkey, hrB⟩ := hRfacts r hr
    have h40 : M.length = 40 := h5 ⟨r, hrB, hkey⟩
    rw [hfin, List.length_append, h40, Nat.add_sub_cancel, List.drop_left]

theorem merge_eq (prev incoming : List CatHealthRow) :
    mergeHealthHistory prev incoming =
      (List.insertionSort rowLe (dedupByTimestamp (prev ++ incoming))).drop
        ((List.insertionSort rowLe (dedupByTimestamp (prev ++ incoming))).length - 40) := rfl

theorem pairwiseLt_sort_dedup (l : List CatHealthRow) :
    List.Pairwise rowLt (List.insertionSort rowLe (dedupByTimestamp l)) :=
  pairwise_lt_of_sorted_nodup (List.sorted_insertionSort rowLe _)
    (((keysOf_perm (List.perm_insertionSort rowLe _)).nodup_iff).mpr (keysOf_dedup_nodup l))

theorem merge_pairwiseLt (prev incoming : List CatHealthRow) :
    List.Pairwise rowLt (mergeHealthHistory prev incoming) := by
  rw [merge_eq]
  exact List.Pairwise.sublist (List.drop_sublist _ _) (pairwiseLt_sort_dedup _)

theorem merge_length_le (prev incoming : List CatHealthRow) :
    (mergeHealthHistory prev incoming).length ≤ 40 := by
  rw [merge_eq, List.length_drop]
  omega

theorem merge_sorted (prev incoming : List CatHealthRow) :
    List.Pairwise rowLe (mergeHealthHistory prev incoming) := by
  rw [merge_eq]
  exact List.Pairwise.sublist (List.drop_sublist _ _) (List.sorted_insertionSort rowLe _)

theorem merge_mem_findLast (prev incoming : List CatHealthRow) (r : CatHealthRow)
    (hr : r ∈ mergeHealthHistory prev incoming) :
    findLastTs (prev ++ incoming) r.timestamp = some r := by
  rw [merge_eq] at hr
  have h1 : r ∈ List.insertionSort rowLe (dedupByTimestamp (prev ++ incoming)) :=
    List.drop_subset _ _ hr
  exact (mem_dedup_iff _ r).mp ((List.perm_insertionSort rowLe _).subset h1)

theorem merge_lww (prev incoming : List CatHealthRow) (r : CatHealthRow)
    (hr : r ∈ mergeHealthHistory prev incoming) (hkey : r.timestamp ∈ keysOf incoming) :
    findLastTs incoming r.timestamp = some r := by
  have h := merge_mem_findLast prev incoming r hr
  rw [findLastTs_append] at h
  cases hf : findLastTs incoming r.timestamp with
  | none =>
    have := (findLastTs_isSome_iff incoming r.timestamp).mpr hkey
    rw [hf] at this
    simp at this
  | some y =>
    rw [hf] at h
    simp only [Option.or] at h
    exact h

theorem merge_dropped_key (A B : List CatHealthRow) (t : Nat)
    (ht : t ∈ keysOf (A ++ B)) (hnot : t ∉ keysOf (mergeHealthHistory A B)) :
    (∀ m ∈ mergeHealthHistory A B, t < m.timestamp) ∧
      (mergeHealthHistory A B).length = 40 := by
  have htS : t ∈ keysOf (List.insertionSort rowLe (dedupByTimestamp (A ++ B))) := by
    have h1 : t ∈ keysOf (dedupByTimestamp (A ++ B)) := (mem_keysOf_dedup _ t).mpr ht
    exact ((keysOf_perm (List.perm_insertionSort rowLe _)).mem_iff).mpr h1
  set S := List.insertionSort rowLe (dedupByTimestamp (A ++ B)) with hS
  set n := S.length - 40 with hn
  have hdecomp : S.take n ++ S.drop n = S := List.take_append_drop n S
  obtain ⟨p, hpS, hpt⟩ := mem_keysOf.mp htS
  have hout : mergeHealthHistory A B = S.drop n := merge_eq A B
  have hpP : p ∈ S.take n := by
    rcases List.mem_append.mp (by rw [hdecomp]; exact hpS) with h | h
    · exact h
    · exact absurd (mem_keysOf.mpr ⟨p, by rwa [hout], hpt⟩) hnot
  have hpair : List.Pairwise rowLt (S.take n ++ S.drop n) := by
    rw [hdecomp]
    exact pairwiseLt_sort_dedup _
  have hcross := (List.pairwise_append.mp hpair).2.2
  constructor
  · intro m hm
    rw [hout] at hm
    exact hpt ▸ hcross p hpP m hm
  · have hne : S.take n ≠ [] := fun he => by simp [he] at hpP
    have hlen : (S.take n).length = n ⊓ S.length := List.length_take n S
    have hpos : 0 < (S.take n).length := List.length_pos.mpr hne
    rw [hout, List.length_drop]
    omega

/-- C4: `mergeHealthHistory` is idempotent in its incoming argument, and any
row of the result whose timestamp occurs in the incoming batch is the
later-provided (incoming) row for that timestamp — last write wins. -/
theorem mergeHealthHistory_idem_and_lww :
    (∀ A B : List CatHealthRow,
      mergeHealthHistory (mergeHealthHistory A B) B = mergeHealthHistory A B) ∧
    (∀ prev incoming : List CatHealthRow, ∀ r : CatHealthRow,
      r ∈ mergeHealthHistory prev incoming → r.timestamp ∈ keysOf incoming →
        findLastTs incoming r.timestamp = some r) := by
  constructor
  · intro A B
    apply merge_absorb
    · exact merge_pairwiseLt A B
    · intro m hm hkey
      exact merge_lww A B m hm hkey
    · intro b hb hnot m hm
      have ht : b.timestamp ∈ keysOf (A ++ B) := by
        rw [keysOf_append]
        exact List.mem_append.mpr (Or.inr (List.mem_map.mpr ⟨b, hb, rfl⟩))
      exact (merge_dropped_key A B b.timestamp ht hnot).1 m hm
    · exact merge_length_le A B
    · rintro ⟨b, hb, hnot⟩
      have ht : b.timestamp ∈ keysOf (A ++ B) := by
        rw [keysOf_append]
        exact List.mem_append.mpr (Or.inr (List.mem_map.mpr ⟨b, hb, rfl⟩))
      exact (merge_dropped_key A B b.timestamp ht hnot).2
  · exact merge_lww

/-- Witness for C4: a shared timestamp keeps the incoming row's data, and a
second merge of the same batch is a no-op. -/
theorem mergeHealthHistory_idem_and_lww_witness :
    mergeHealthHistory
        (mergeHealthHistory [⟨1, "green", "5", "0"⟩] [⟨1, "red", "7", "2"⟩])
        [⟨1, "red", "7", "2"⟩] =
      mergeHealthHistory [⟨1, "green", "5", "0"⟩] [⟨1, "red", "7", "2"⟩] ∧
    (⟨1, "red", "7", "2"⟩ : CatHealthRow) ∈
        mergeHealthHistory [⟨1, "green", "5", "0"⟩] [⟨1, "red", "7", "2"⟩] ∧
    findLastTs [⟨1, "red", "7", "2"⟩] 1 = some ⟨1, "red", "7", "2"⟩ :=
  ⟨mergeHealthHistory_idem_and_lww.1 [⟨1, "green", "5", "0"⟩] [⟨1, "red", "7", "2"⟩],
   by decide,
   mergeHealthHistory_idem_and_lww.2 [⟨1, "green", "5", "0"⟩] [⟨1, "red", "7", "2"⟩]
     ⟨1, "red", "7", "2"⟩ (by decide) (by decide)⟩

/-- C5: on all inputs the merged history has pairwise-distinct timestamps,
at most 40 rows, and non-decreasing timestamps. -/
theorem mergeHealthHistory_invariant (prev incoming : List CatHealthRow) :
    (keysOf (mergeHealthHistory prev incoming)).Nodup ∧
    (mergeHealthHistory prev incoming).length ≤ 40 ∧
    List.Pairwise (fun a b : CatHealthRow => a.timestamp ≤ b.timestamp)
      (mergeHealthHistory prev incoming) := by
  refine ⟨?_, merge_length_le prev incoming, merge_sorted prev incoming⟩
  exact List.pairwise_map.mpr ((merge_pairwiseLt prev incoming).imp fun h => Nat.ne_of_lt h)

/-! ## Cluster connection management (src/context/MonitoringProvider.tsx) -/

/-- `ClusterConnection` from src/types/app.ts. -/
structure ClusterConnection where
  label : String
  baseUrl : String
  username : String
  password : String
deriving DecidableEq

/-- `CreateClusterInput` from src/types/app.ts (`username`/`password`
optional). -/
structure CreateClusterInput where
  label : String
  baseUrl : String
  username : Option String
  password : Option String
deriving DecidableEq

/-- The common JS whitespace characters for `String.prototype.trim`. -/
def isWhiteSpaceChar (c : Char) : Bool :=
  c == ' ' || c == '\t' || c == '\n' || c == '\r'

/-- `String.prototype.trim`, structurally (restricted to the common
whitespace characters; exotic Unicode whitespace is not modelled). -/
def trimStr (s : String) : String :=
  String.mk (((s.toList.dropWhile isWhiteSpaceChar).reverse.dropWhile isWhiteSpaceChar).reverse)

/-- `.replace(/\/$/, '')`: drop a single trailing slash if present. -/
def stripTrailingSlash (s : String) : String :=
  if s.toList.getLast? = some '/' then String.mk s.toList.dropLast else s

/-- `input.baseUrl.trim().replace(/\/$/, '')` of `addCluster`/`updateCluster`. -/
def sanitizeBaseUrl (s : String) : String := stripTrailingSlash (trimStr s)

/-- `input.username?.trim() || ''` (and likewise for the password). -/
def optTrim (o : Option String) : String := trimStr (o.getD "")

/-- The label `updateCluster` writes: `input.label || sanitizedBaseUrl`
(no trim, unlike `addCluster`). -/
def newLabelOf (input : CreateClusterInput) : String :=
  if input.label = "" then sanitizeBaseUrl input.baseUrl else input.label

/-- The connection-list update of `addCluster`: build the new connection
(label `(input.label || sanitizedBaseUrl).trim()`), then replace the
connection with the same label if one exists, else append. -/
def addClusterList (prev : List ClusterConnection) (input : CreateClusterInput) :
    List ClusterConnection :=
  let sanitizedBaseUrl := sanitizeBaseUrl input.baseUrl
  let clusterLabel := trimStr (if input.label = "" then sanitizedBaseUrl else input.label)
  let newCluster : ClusterConnection :=
    ⟨clusterLabel, sanitizedBaseUrl, optTrim input.username, optTrim input.password⟩
  if prev.any (fun c => c.label == newCluster.label) then
    prev.map (fun c => if c.label = newCluster.label then newCluster else c)
  else prev ++ [newCluster]

/-- The connection-list update of `updateCluster`: rewrite every connection
whose label equals `clusterLabel` with the new label, base URL and
credentials. -/
def updateClusterList (prev : List ClusterConnection) (clusterLabel : String)
    (input : CreateClusterInput) : List ClusterConnection :=
  prev.map fun c =>
    if c.label = clusterLabel then
      { c with
        label := newLabelOf input
        baseUrl := sanitizeBaseUrl input.baseUrl
        username := optTrim input.username
        password := optTrim input.password }
    else c

/-- `deleteCluster` over the provider state `(clusters, activeClusterLabel)`:
refuse when exactly one connection exists; otherwise drop the connections
with the given label and, if the active label was the deleted one, activate
`remaining[0]?.label ?? ''`. -/
def deleteClusterApply (clusters : List ClusterConnection) (activeLabel : String)
    (clusterLabel : String) : List ClusterConnection × String :=
  if clusters.length = 1 then (clusters, activeLabel)
  else
    let remaining := clusters.filter fun c => !(c.label == clusterLabel)
    (remaining,
     if activeLabel = clusterLabel then (remaining.head?.map (·.label)).getD ""
     else activeLabel)

/-- The derived active connection:
`clusters.find(c => c.label === activeClusterLabel) ?? clusters[0] ?? null`. -/
def activeClusterOf (clusters : List ClusterConnection) (label : String) :
    Option ClusterConnection :=
  (clusters.find? fun c => c.label == label).or clusters.head?

/-- The labels of a connection list. -/
def labelsOf (l : List ClusterConnection) : List String := l.map (·.label)

/-- Counterexample to C9: renaming connection "a" to the already-used label
"b" via `updateCluster` produces two connections labelled "b". -/
theorem updateCluster_breaks_label_uniqueness :
    (labelsOf [⟨"a", "http://a", "", ""⟩, ⟨"b", "http://b", "", ""⟩]).Nodup ∧
    ¬ (labelsOf (updateClusterList
        [⟨"a", "http://a", "", ""⟩, ⟨"b", "http://b", "", ""⟩] "a"
        ⟨"b", "http://a2", none, none⟩)).Nodup := by
  constructor
  · decide
  · decide

theorem labelsOf_append (l1 l2 : List ClusterConnection) :
    labelsOf (l1 ++ l2) = labelsOf l1 ++ labelsOf l2 := by
  simp [labelsOf]

theorem nodup_labels_map {g : ClusterConnection → ClusterConnection}
    {l : List ClusterConnection}
    (h : List.Pairwise (fun a b => (g a).label ≠ (g b).label) l) :
    (labelsOf (l.map g)).Nodup := by
  simp only [labelsOf, List.map_map]
  exact List.pairwise_map.mpr h

/-- C9 (amended): `addCluster` and `deleteCluster` preserve pairwise-distinct
labels unconditionally; `updateCluster` preserves them provided the new label
does not equal the label of any *other* existing connection. -/
theorem cluster_ops_preserve_label_uniqueness :
    (∀ (prev : List ClusterConnection) (input : CreateClusterInput),
      (labelsOf prev).Nodup → (labelsOf (addClusterList prev input)).Nodup) ∧
    (∀ (clusters : List ClusterConnection) (activeLabel clusterLabel : String),
      (labelsOf clusters).Nodup →
        (labelsOf (deleteClusterApply clusters activeLabel clusterLabel).1).Nodup) ∧
    (∀ (prev : List ClusterConnection) (clusterLabel : String) (input : CreateClusterInput),
      (labelsOf prev).Nodup →
      (∀ c ∈ prev, c.label ≠ clusterLabel → c.label ≠ newLabelOf input) →
        (labelsOf (updateClusterList prev clusterLabel input)).Nodup) := by
  refine ⟨?_, ?_, ?_⟩
  · intro prev input hn
    unfold addClusterList
    set lbl := trimStr (if input.label = "" then sanitizeBaseUrl input.baseUrl else input.label)
      with hlbl
    by_cases h : (prev.any fun c => c.label == lbl) = true
    · rw [if_pos h]
      have : labelsOf (prev.map fun c => if c.label = lbl then
          (⟨lbl, sanitizeBaseUrl input.baseUrl, optTrim input.username,
            optTrim input.password⟩ : ClusterConnection) else c) = labelsOf prev := by
        simp only [labelsOf, List.map_map]
        apply List.map_congr_left
        intro c _
        by_cases hc : c.label = lbl <;> simp [Function.comp, hc]
      rwa [this]
    · rw [if_neg h]
      rw [labelsOf_append]
      have hforall : ∀ x ∈ prev, ¬ x.label = lbl := fun x hx he =>
        h (List.any_eq_true.mpr ⟨x, hx, by simp [he]⟩)
      simpa [labelsOf, List.nodup_append] using ⟨hn, hforall⟩
  · intro clusters activeLabel clusterLabel hn
    unfold deleteClusterApply
    by_cases h : clusters.length = 1
    · rwa [if_pos h]
    · rw [if_neg h]
      exact List.Nodup.sublist ((List.filter_sublist clusters).map _) hn
  · intro prev clusterLabel input hn hfresh
    unfold updateClusterList
    have hpw : List.Pairwise (fun a b : ClusterConnection => a.label ≠ b.label) prev :=
      List.pairwise_map.mp hn
    apply nodup_labels_map
    refine List.Pairwise.imp_of_mem ?_ hpw
    intro a b ha hb hne
    by_cases haL : a.label = clusterLabel <;> by_cases hbL : b.label = clusterLabel
    · exact absurd (haL.trans hbL.symm) hne
    · simp only [if_pos haL, if_neg hbL]
      exact fun he => (hfresh b hb hbL) he.symm
    · simp only [if_neg haL, if_pos hbL]
      exact hfresh a ha haL
    · simpa [haL, hbL] using hne

/-- Witness for C9 at concrete inputs: an add that replaces, a delete, and an
update to a fresh label. -/
theorem cluster_ops_preserve_label_uniqueness_witness :
    (labelsOf (addClusterList [⟨"a", "http://a", "", ""⟩, ⟨"b", "http://b", "", ""⟩]
        ⟨"b", "http://b2", none, none⟩)).Nodup ∧
    (labelsOf (deleteClusterApply [⟨"a", "http://a", "", ""⟩, ⟨"b", "http://b", "", ""⟩]
        "a" "a").1).Nodup ∧
    (labelsOf (updateClusterList [⟨"a", "http://a", "", ""⟩, ⟨"b", "http://b", "", ""⟩]
        "a" ⟨"c", "http://a", none, none⟩)).Nodup :=
  ⟨cluster_ops_preserve_label_uniqueness.1 _ _ (by decide),
   cluster_ops_preserve_label_uniqueness.2.1 _ "a" "a" (by decide),
   cluster_ops_preserve_label_uniqueness.2.2 _ "a" _ (by decide) (by decide)⟩

theorem activeClusterOf_mem {clusters : List ClusterConnection} {label : String}
    {c : ClusterConnection} (h : activeClusterOf clusters label = some c) : c ∈ clusters := by
  unfold activeClusterOf at h
  cases hf : clusters.find? fun x => x.label == label with
  | some y =>
    rw [hf] at h
    simp only [Option.or] at h
    cases h
    exact List.mem_of_find?_eq_some hf
  | none =>
    rw [hf] at h
    simp only [Option.or] at h
    exact List.mem_of_mem_head? h

/-- C10: `deleteCluster` refuses whenever exactly one connection exists,
leaving both the list and the active label unchanged; and when the deleted
connection was the (derived) active one and other connections remain, the
new derived active connection is one of the remaining connections. -/
theorem deleteCluster_guard_and_reactivation :
    (∀ (clusters : List ClusterConnection) (activeLabel clusterLabel : String),
      clusters.length = 1 →
        deleteClusterApply clusters activeLabel clusterLabel = (clusters, activeLabel)) ∧
    (∀ (clusters : List ClusterConnection) (activeLabel clusterLabel : String)
       (c : ClusterConnection),
      activeClusterOf clusters activeLabel = some c →
      c.label = clusterLabel →
      (clusters.filter fun x => !(x.label == clusterLabel)) ≠ [] →
        ∃ c' ∈ clusters.filter fun x => !(x.label == clusterLabel),
          activeClusterOf (deleteClusterApply clusters activeLabel clusterLabel).1
            (deleteClusterApply clusters activeLabel clusterLabel).2 = some c') := by
  constructor
  · intro clusters activeLabel clusterLabel h
    unfold deleteClusterApply
    rw [if_pos h]
  · intro clusters activeLabel clusterLabel c hact hlbl hrem
    by_cases hlen : clusters.length = 1
    · exfalso
      obtain ⟨x, hx⟩ := List.length_eq_one.mp hlen
      have hcx : c = x := by
        have := activeClusterOf_mem hact
        rw [hx] at this
        simpa using this
      have hxlbl : x.label = clusterLabel := hcx ▸ hlbl
      rw [hx] at hrem
      simp [List.filter_cons, hxlbl] at hrem
    · set remaining := clusters.filter fun x => !(x.label == clusterLabel) with hremdef
      have happ : deleteClusterApply clusters activeLabel clusterLabel =
          (remaining, if activeLabel = clusterLabel
            then (remaining.head?.map (·.label)).getD "" else activeLabel) := by
        unfold deleteClusterApply
        rw [if_neg hlen]
      rw [happ]
      show ∃ c' ∈ remaining, activeClusterOf remaining
        (if activeLabel = clusterLabel
          then (remaining.head?.map (·.label)).getD "" else activeLabel) = some c'
      obtain ⟨r, rest, hr⟩ := List.exists_cons_of_ne_nil hrem
      by_cases hal : activeLabel = clusterLabel
      · rw [if_pos hal]
        refine ⟨r, by rw [hr]; simp, ?_⟩
        rw [hr]
        simp only [List.head?_cons, Option.map_some, Option.getD_some]
        unfold activeClusterOf
        rw [List.find?_cons_of_pos _ (by simp)]
        simp [Option.or]
      · rw [if_neg hal]
        have hfind : clusters.find? (fun x => x.label == activeLabel) = none := by
          cases hf : clusters.find? fun x => x.label == activeLabel with
          | none => rfl
          | some y =>
            have hy : activeClusterOf clusters activeLabel = some y := by
              unfold activeClusterOf
              rw [hf]
              simp [Option.or]
            rw [hact] at hy
            cases hy
            have := List.find?_some hf
            simp only [beq_iff_eq] at this
            exact absurd (hlbl ▸ this : clusterLabel = activeLabel) fun he => hal he.symm
        have hfindrem : remaining.find? (fun x => x.label == activeLabel) = none := by
          rw [List.find?_eq_none] at hfind ⊢
          intro x hx
          exact hfind x (List.mem_of_mem_filter hx)
        refine ⟨r, by rw [hr]; simp, ?_⟩
        unfold activeClusterOf
        rw [hfindrem, hr]
        simp [Option.or]

/-- Witness for C10: a singleton list is left untouched; deleting the active
"a" of a two-connection list re-activates "b". -/
theorem deleteCluster_guard_and_reactivation_witness :
    deleteClusterApply [⟨"a", "http://a", "", ""⟩] "a" "a" =
      ([⟨"a", "http://a", "", ""⟩], "a") ∧
    (∃ c' ∈ List.filter (fun x => !(x.label == "a"))
        [⟨"a", "http://a", "", ""⟩, ⟨"b", "http://b", "", ""⟩],
      activeClusterOf
        (deleteClusterApply [⟨"a", "http://a", "", ""⟩, ⟨"b", "http://b", "", ""⟩] "a" "a").1
        (deleteClusterApply [⟨"a", "http://a", "", ""⟩, ⟨"b", "http://b", "", ""⟩] "a" "a").2 =
        some c') :=
  ⟨deleteCluster_guard_and_reactivation.1 _ "a" "a" (by decide),
   deleteCluster_guard_and_reactivation.2 _ "a" "a" ⟨"a", "http://a", "", ""⟩
     (by decide) (by decide) (by decide)⟩

/-! ## Fetch-cycle error classification (src/context/MonitoringProvider.tsx,
`fetchAll` catch handler) -/

/-- Lower-casing, structurally (`String.prototype.toLowerCase`). -/
def lowerStr (s : String) : String := String.mk (s.toList.map Char.toLower)

/-- `String.prototype.includes` on character lists. -/
def hasSubstr : List Char → List Char → Bool
  | [], pat => pat.isEmpty
  | c :: rest, pat => pat.isPrefixOf (c :: rest) || hasSubstr rest pat

/-- `s.includes(pat)`. -/
def containsSub (s pat : String) : Bool := hasSubstr s.toList pat.toList

/-- A JavaScript `Error` as the catch handler reads it: `name` and `message`.
A thrown non-`Error` value is modelled as `none`. -/
structure JsError where
  name : String
  message : String
deriving DecidableEq

/-- The message-rewriting step of the catch handler: a message mentioning
`fetch` together with `failed` or `error` (case-insensitively) becomes
`'Network error'`. -/
def rewriteMessage (msg : String) : String :=
  if containsSub (lowerStr msg) "fetch" ∧
      (containsSub (lowerStr msg) "failed" ∨ containsSub (lowerStr msg) "error")
  then "Network error" else msg

/-- `err instanceof Error ? err.message : 'Unknown error occurred'`, followed
by the rewrite above. -/
def fetchErrMessage (err : Option JsError) : String :=
  rewriteMessage (match err with
    | some e => e.message
    | none => "Unknown error occurred")

/-- The `isTimeout` test of the catch handler: an `Error` named `AbortError`
or `TimeoutError`, or whose (rewritten) message mentions `timeout` or
`aborted`. -/
def isTimeoutErr (err : Option JsError) (message : String) : Bool :=
  match err with
  | none => false
  | some e =>
    e.name == "AbortError" || e.name == "TimeoutError" ||
      containsSub (lowerStr message) "timeout" || containsSub (lowerStr message) "aborted"

/-- The UI-facing outcome the catch handler writes: the surfaced error
message and the `connectionFailed` flag. -/
structure FetchErrorOutcome where
  error : Option String
  connectionFailed : Bool
deriving DecidableEq

/-- The catch handler of `fetchAll` with an active cluster present,
as a function of the error and of the outcome of the synchronous health
probe run in the timeout branch (`probeSuccess`, `probeError`). Timeout with
failing probe, or any non-timeout error, sets `connectionFailed`; only a
timeout whose probe succeeds leaves it cleared. (The toast side effect is
presentation and not modelled.) -/
def handleFetchError (err : Option JsError) (cluster : ClusterConnection)
    (probeSuccess : Bool) (probeError : Option String) : FetchErrorOutcome :=
  let message := fetchErrMessage err
  if isTimeoutErr err message then
    if !probeSuccess then
      { error := some (probeError.getD
          ("Network error, cannot access your cluster. Cluster uri: " ++ cluster.baseUrl)),
        connectionFailed := true }
    else
      { error := some message, connectionFailed := false }
  else
    if containsSub (lowerStr message) "network error" then
      { error := some ("Network error, cannot access your cluster. Cluster uri: "
          ++ cluster.baseUrl),
        connectionFailed := true }
    else
      { error := some message, connectionFailed := true }

/-- Counterexample to C1: a non-timeout failure (an HTTP 500 response turned
into `Error('Elasticsearch 500 Internal Server Error')`) is NOT classified as
transient — the handler sets `connectionFailed`. -/
theorem fetchError_nontimeout_counterexample :
    isTimeoutErr (some ⟨"Error", "Elasticsearch 500 Internal Server Error"⟩)
        (fetchErrMessage (some ⟨"Error", "Elasticsearch 500 Internal Server Error"⟩)) = false ∧
    (handleFetchError (some ⟨"Error", "Elasticsearch 500 Internal Server Error"⟩)
        ⟨"prod", "http://es:9200", "", ""⟩ true none).connectionFailed = true := by
  constructor
  · decide
  · decide

/-- C1 (amended): every fetch-cycle failure that is not a timeout/abort is
classified as a connectivity failure: the error message is surfaced AND
`connectionFailed` is set (suspending polling); only a timeout/abort whose
follow-up health probe succeeds is treated as transient. -/
theorem fetchError_nontimeout_sets_connectionFailed
    (err : Option JsError) (cluster : ClusterConnection)
    (probeSuccess : Bool) (probeError : Option String)
    (h : isTimeoutErr err (fetchErrMessage err) = false) :
    (handleFetchError err cluster probeSuccess probeError).connectionFailed = true ∧
    (handleFetchError err cluster probeSuccess probeError).error.isSome = true := by
  simp only [handleFetchError, h]
  by_cases hn : containsSub (lowerStr (fetchErrMessage err)) "network error" = true <;>
    simp [hn]

/-- Witness for C1's amended theorem at the HTTP-500 error. -/
theorem fetchError_nontimeout_sets_connectionFailed_witness :
    isTimeoutErr (some ⟨"Error", "Elasticsearch 502 Bad Gateway"⟩)
        (fetchErrMessage (some ⟨"Error", "Elasticsearch 502 Bad Gateway"⟩)) = false ∧
    (handleFetchError (some ⟨"Error", "Elasticsearch 502 Bad Gateway"⟩)
        ⟨"prod", "http://es:9200", "", ""⟩ true none).connectionFailed = true ∧
    (handleFetchError (some ⟨"Error", "Elasticsearch 502 Bad Gateway"⟩)
        ⟨"prod", "http://es:9200", "", ""⟩ true none).error.isSome = true :=
  ⟨by decide,
   (fetchError_nontimeout_sets_connectionFailed
      (some ⟨"Error", "Elasticsearch 502 Bad Gateway"⟩)
      ⟨"prod", "http://es:9200", "", ""⟩ true none (by decide)).1,
   (fetchError_nontimeout_sets_connectionFailed
      (some ⟨"Error", "Elasticsearch 502 Bad Gateway"⟩)
      ⟨"prod", "http://es:9200", "", ""⟩ true none (by decide)).2⟩

/-! ## In-flight fetch results across connection switches
(src/context/MonitoringProvider.tsx, `fetchAll` / `setActiveCluster`) -/

/-- `MonitoringSnapshot` (src/types/api.ts), reduced to a representative
payload: the name of the cluster the data came from, the health rows of the
cycle, and the fetch timestamp. -/
structure MonitoringSnapshot where
  clusterName : String
  catHealth : List CatHealthRow
  fetchedAt : Nat
deriving DecidableEq

/-- The provider state touched by connection switching and snapshot
publication. -/
structure ProviderState where
  clusters : List ClusterConnection
  activeClusterLabel : String
  healthCheckDone : Bool
  snapshot : Option MonitoringSnapshot
  healthHistory : List CatHealthRow
  connectionFailed : Bool
deriving DecidableEq

/-- `setActiveCluster` from the provider's context value: store the new label
and reset the one-shot health-check flag. -/
def setActiveCluster (s : ProviderState) (clusterLabel : String) : ProviderState :=
  { s with activeClusterLabel := clusterLabel, healthCheckDone := false }

/-- The success continuation of `fetchAll` (the code run when the awaited
`Promise.all` resolves): publish the snapshot, merge the cycle's health rows
into the history, clear `connectionFailed`. It takes the state at resolution
time — note that it consults neither the fetch's originating connection nor
the currently-active one. -/
def applyFetchSuccess (s : ProviderState) (result : MonitoringSnapshot) : ProviderState :=
  { s with
    snapshot := some result
    healthHistory := mergeHealthHistory s.healthHistory result.catHealth
    connectionFailed := false }

/-- C2 (code behaviour at the failing input): `fetchAll`'s resolution handler
publishes its result unconditionally — it never compares the result's
originating connection with the active one — so a cycle started for
connection "A" that resolves after `setActiveCluster "B"` still overwrites
the snapshot with A's data while "B" is active. -/
theorem staleFetch_overwrites_snapshot :
    (∀ (s : ProviderState) (result : MonitoringSnapshot),
      (applyFetchSuccess s result).snapshot = some result ∧
      (applyFetchSuccess s result).activeClusterLabel = s.activeClusterLabel) ∧
    (applyFetchSuccess
        (setActiveCluster
          ⟨[⟨"A", "http://a", "", ""⟩, ⟨"B", "http://b", "", ""⟩], "A", true, none, [], false⟩
          "B")
        ⟨"cluster-A", [], 5⟩).snapshot = some ⟨"cluster-A", [], 5⟩ ∧
    (applyFetchSuccess
        (setActiveCluster
          ⟨[⟨"A", "http://a", "", ""⟩, ⟨"B", "http://b", "", ""⟩], "A", true, none, [], false⟩
          "B")
        ⟨"cluster-A", [], 5⟩).activeClusterLabel = "B" := by
  refine ⟨fun s result => ⟨rfl, rfl⟩, by decide, by decide⟩

/-! ## Upgrade sequencing (src/App.tsx `nodesWithSequentialOrder`,
src/services/elasticsearch.ts `getNodes`) -/

/-- An exact JavaScript number of the shape produced by `parseFloat` on a
decimal capture and the arithmetic the uptime comparator performs on it:
the rational `num / 10 ^ exp`, represented exactly (IEEE rounding is not
modelled; none of the verified properties depend on it). -/
structure JsNum where
  num : Int
  exp : Nat
deriving DecidableEq

/-- Exact subtraction of two decimal rationals. -/
def jsSub (a b : JsNum) : JsNum :=
  ⟨a.num * 10 ^ b.exp - b.num * 10 ^ a.exp, a.exp + b.exp⟩

/-- `a ≤ b` on decimal rationals (cross-multiplied). -/
def jsLe (a b : JsNum) : Prop := a.num * 10 ^ b.exp ≤ b.num * 10 ^ a.exp

/-- The comparator value is `≤ 0`. -/
def jsNonpos (a : JsNum) : Prop := a.num ≤ 0

/-- The comparator value is `0`. -/
def jsIsZero (a : JsNum) : Prop := a.num = 0

instance (a b : JsNum) : Decidable (jsLe a b) :=
  inferInstanceAs (Decidable (a.num * 10 ^ b.exp ≤ b.num * 10 ^ a.exp))

instance (a : JsNum) : Decidable (jsNonpos a) := inferInstanceAs (Decidable (a.num ≤ 0))

instance (a : JsNum) : Decidable (jsIsZero a) := inferInstanceAs (Decidable (a.num = 0))

/-- `parseFloat` over a `[0-9.]+` capture, exactly: leading digits, then an
optional fraction after the first dot. A capture with no parseable digits
(`parseFloat` yields `NaN`) is read as 0, matching the spec's "unparseable
uptime sorts as zero". -/
def parseFloatVal (cs : List Char) : JsNum :=
  let intPart := cs.takeWhile Char.isDigit
  let rest := cs.drop intPart.length
  let fracPart := if rest.head? = some '.' then (rest.drop 1).takeWhile Char.isDigit else []
  if intPart.isEmpty ∧ fracPart.isEmpty then ⟨0, 0⟩
  else ⟨(digitsVal intPart * 10 ^ fracPart.length + digitsVal fracPart : Nat), fracPart.length⟩

/-- The `s/m/h/d` multiplier table (1, 60, 3600, 86400) with the `|| 1`
fallback. -/
def uptimeUnitMult (c : Char) : Nat :=
  if c = 's' then 1 else if c = 'm' then 60 else if c = 'h' then 3600
  else if c = 'd' then 86400 else 1

/-- `parseUptime` from `nodesWithSequentialOrder`: match a digits-and-dots
body followed by one unit letter of `smhd` (the anchored regex), multiply
the parsed value by the unit; anything else (including the empty string)
is 0. -/
def parseUptime (uptime : String) : JsNum :=
  if uptime = "" then ⟨0, 0⟩
  else
    let cs := uptime.toList
    match cs.getLast? with
    | none => ⟨0, 0⟩
    | some unit =>
      let body := cs.dropLast
      if body ≠ [] ∧ body.all (fun c => c.isDigit || c == '.') ∧
          (unit == 's' || unit == 'm' || unit == 'h' || unit == 'd') then
        let v := parseFloatVal body
        ⟨v.num * uptimeUnitMult unit, v.exp⟩
      else ⟨0, 0⟩

/-- `parseUptime(node.uptime || '0s')`. -/
def uptimeOf (n : NodeInfo) : JsNum := parseUptime (if n.uptime = "" then "0s" else n.uptime)

/-- The comparator of the multiple-versions branch of
`nodesWithSequentialOrder`: null tier first, then tier ascending, then
uptime descending. -/
def nodeCompareMulti (a b : NodeInfo) : JsNum :=
  match a.upgradeOrder, b.upgradeOrder with
  | none, none => ⟨0, 0⟩
  | none, some _ => ⟨-1, 0⟩
  | some _, none => ⟨1, 0⟩
  | some oa, some ob =>
    if ¬ jsIsZero (jsSub ⟨oa, 0⟩ ⟨ob, 0⟩) then jsSub ⟨oa, 0⟩ ⟨ob, 0⟩
    else jsSub (uptimeOf b) (uptimeOf a)

/-- The comparator of the all-same-version branch: null tier last, then tier
ascending, then uptime descending. -/
def nodeCompareSame (a b : NodeInfo) : JsNum :=
  match a.upgradeOrder, b.upgradeOrder with
  | none, none => ⟨0, 0⟩
  | none, some _ => ⟨1, 0⟩
  | some _, none => ⟨-1, 0⟩
  | some oa, some ob =>
    if ¬ jsIsZero (jsSub ⟨oa, 0⟩ ⟨ob, 0⟩) then jsSub ⟨oa, 0⟩ ⟨ob, 0⟩
    else jsSub (uptimeOf b) (uptimeOf a)

/-- Non-positive comparator value: the sort order of the multi-version
branch. -/
def multiLe (a b : NodeInfo) : Prop := jsNonpos (nodeCompareMulti a b)

/-- Non-positive comparator value: the sort order of the same-version
branch. -/
def sameLe (a b : NodeInfo) : Prop := jsNonpos (nodeCompareSame a b)

instance : DecidableRel multiLe := fun a b =>
  inferInstanceAs (Decidable (jsNonpos (nodeCompareMulti a b)))

instance : DecidableRel sameLe := fun a b =>
  inferInstanceAs (Decidable (jsNonpos (nodeCompareSame a b)))

/-- The multi-version sort order, as the spec words it: already-upgraded
(null-tier) nodes first, then tier ascending with uptime descending as the
tie-break. -/
def multiKeyLe (a b : NodeInfo) : Prop :=
  match a.upgradeOrder, b.upgradeOrder with
  | none, _ => True
  | some _, none => False
  | some oa, some ob => oa < ob ∨ (oa = ob ∧ jsLe (uptimeOf b) (uptimeOf a))

/-- The same-version sort order, as the spec words it: tier ascending with
uptime descending as the tie-break, null-tier nodes last. -/
def sameKeyLe (a b : NodeInfo) : Prop :=
  match a.upgradeOrder, b.upgradeOrder with
  | none, some _ => False
  | none, none => True
  | some _, none => True
  | some oa, some ob => oa < ob ∨ (oa = ob ∧ jsLe (uptimeOf b) (uptimeOf a))

/-- A node of the `nodesWithSequentialOrder` output:
`{ ...node, sequentialOrder }`. -/
structure OrderedNode where
  info : NodeInfo
  sequentialOrder : Option Nat
deriving DecidableEq

/-- The running-counter pass of `nodesWithSequentialOrder`: null-tier nodes
get a null position, the others consecutive positions from the counter. -/
def assignSeq : Nat → List NodeInfo → List OrderedNode
  | _, [] => []
  | counter, n :: rest =>
    match n.upgradeOrder with
    | none => ⟨n, none⟩ :: assignSeq counter rest
    | some _ => ⟨n, some (counter + 1)⟩ :: assignSeq (counter + 1) rest

/-- `nodesWithSequentialOrder` from src/App.tsx: if all nodes share one
version, recompute tiers against a `null` baseline and sort null-last;
otherwise keep the tiers carried by the nodes (computed by `getNodes`
against the actual highest version) and sort null-first; in both branches a
running counter then assigns positions to non-null-tier nodes. -/
def nodesWithSequentialOrder (nodes : List NodeInfo) : List OrderedNode :=
  let versions := (nodes.map (·.version)).dedup
  if versions.length = 1 then
    let nodesWithOrder := nodes.map fun n =>
      { n with upgradeOrder := calculateUpgradeOrder n none }
    let sortedNodes := List.insertionSort sameLe nodesWithOrder
    assignSeq 0 sortedNodes
  else
    let sortedNodes := List.insertionSort multiLe nodes
    assignSeq 0 sortedNodes

/-- The post-fetch computation of `getNodes`
(src/services/elasticsearch.ts): compute the highest version over the
non-empty version strings and stamp every node with its upgrade tier
against that baseline. -/
def annotateNodes (rows : List NodeInfo) : List NodeInfo :=
  let versions := (rows.map (·.version)).filter (fun v => !v.isEmpty)
  let highestVersion := getHighestVersion versions
  rows.map fun n => { n with upgradeOrder := calculateUpgradeOrder n highestVersion }

theorem jsLe_total (a b : JsNum) : jsLe a b ∨ jsLe b a := by
  unfold jsLe
  omega

theorem pow_ten_pos (n : Nat) : (0 : Int) < 10 ^ n := pow_pos (by norm_num) n

theorem jsLe_trans {a b c : JsNum} (h1 : jsLe a b) (h2 : jsLe b c) : jsLe a c := by
  unfold jsLe at h1 h2 ⊢
  have hb := pow_ten_pos b.exp
  have h1' := mul_le_mul_of_nonneg_right h1 (le_of_lt (pow_ten_pos c.exp))
  have h2' := mul_le_mul_of_nonneg_right h2 (le_of_lt (pow_ten_pos a.exp))
  have hchain : a.num * 10 ^ c.exp * 10 ^ b.exp ≤ c.num * 10 ^ a.exp * 10 ^ b.exp := by
    calc a.num * 10 ^ c.exp * 10 ^ b.exp = a.num * 10 ^ b.exp * 10 ^ c.exp := by ring
    _ ≤ b.num * 10 ^ a.exp * 10 ^ c.exp := h1'
    _ = b.num * 10 ^ c.exp * 10 ^ a.exp := by ring
    _ ≤ c.num * 10 ^ b.exp * 10 ^ a.exp := h2'
    _ = c.num * 10 ^ a.exp * 10 ^ b.exp := by ring
  exact le_of_mul_le_mul_right hchain hb

theorem jsNonpos_sub_iff (a b : JsNum) : jsNonpos (jsSub a b) ↔ jsLe a b := by
  unfold jsNonpos jsSub jsLe
  simp only
  omega

theorem jsIsZero_natSub_iff (oa ob : Nat) :
    jsIsZero (jsSub ⟨(oa : Int), 0⟩ ⟨(ob : Int), 0⟩) ↔ oa = ob := by
  unfold jsIsZero jsSub
  simp only [pow_zero, mul_one]
  omega

theorem multiLe_iff_key (a b : NodeInfo) : multiLe a b ↔ multiKeyLe a b := by
  unfold multiLe nodeCompareMulti multiKeyLe
  cases ha : a.upgradeOrder <;> cases hb : b.upgradeOrder
  · simp [jsNonpos]
  · simp [jsNonpos]
  · simp [jsNonpos]
  case some.some oa ob =>
    simp only
    by_cases h : jsIsZero (jsSub ⟨(oa : Int), 0⟩ ⟨(ob : Int), 0⟩)
    · have heq : oa = ob := (jsIsZero_natSub_iff oa ob).mp h
      rw [if_neg (by simpa using h)]
      rw [jsNonpos_sub_iff]
      constructor
      · intro hle
        exact Or.inr ⟨heq, hle⟩
      · rintro (hlt | ⟨_, hup⟩)
        · exact absurd heq (Nat.ne_of_lt hlt)
        · exact hup
    · have hne : oa ≠ ob := fun he => h ((jsIsZero_natSub_iff oa ob).mpr he)
      rw [if_pos (by simpa using h)]
      unfold jsNonpos jsSub
      simp only [pow_zero, mul_one]
      constructor
      · intro hle
        exact Or.inl (by omega)
      · rintro (hlt | ⟨heq, _⟩)
        · omega
        · exact absurd heq hne

theorem sameLe_iff_key (a b : NodeInfo) : sameLe a b ↔ sameKeyLe a b := by
  unfold sameLe nodeCompareSame sameKeyLe
  cases ha : a.upgradeOrder <;> cases hb : b.upgradeOrder
  · simp [jsNonpos]
  · simp [jsNonpos]
  · simp [jsNonpos]
  case some.some oa ob =>
    simp only
    by_cases h : jsIsZero (jsSub ⟨(oa : Int), 0⟩ ⟨(ob : Int), 0⟩)
    · have heq : oa = ob := (jsIsZero_natSub_iff oa ob).mp h
      rw [if_neg (by simpa using h)]
      rw [jsNonpos_sub_iff]
      constructor
      · intro hle
        exact Or.inr ⟨heq, hle⟩
      · rintro (hlt | ⟨_, hup⟩)
        · exact absurd heq (Nat.ne_of_lt hlt)
        · exact hup
    · have hne : oa ≠ ob := fun he => h ((jsIsZero_natSub_iff oa ob).mpr he)
      rw [if_pos (by simpa using h)]
      unfold jsNonpos jsSub
      simp only [pow_zero, mul_one]
      constructor
      · intro hle
        exact Or.inl (by omega)
      · rintro (hlt | ⟨heq, _⟩)
        · omega
        · exact absurd heq hne

theorem multiKeyLe_total (a b : NodeInfo) : multiKeyLe a b ∨ multiKeyLe b a := by
  unfold multiKeyLe
  cases ha : a.upgradeOrder <;> cases hb : b.upgradeOrder <;> simp
  case some.some oa ob =>
    rcases Nat.lt_trichotomy oa ob with h | h | h
    · exact Or.inl (Or.inl h)
    · rcases jsLe_total (uptimeOf b) (uptimeOf a) with hu | hu
      · exact Or.inl (Or.inr ⟨h, hu⟩)
      · exact Or.inr (Or.inr ⟨h.symm, hu⟩)
    · exact Or.inr (Or.inl h)

theorem sameKeyLe_total (a b : NodeInfo) : sameKeyLe a b ∨ sameKeyLe b a := by
  unfold sameKeyLe
  cases ha : a.upgradeOrder <;> cases hb : b.upgradeOrder <;> simp
  case some.some oa ob =>
    rcases Nat.lt_trichotomy oa ob with h | h | h
    · exact Or.inl (Or.inl h)
    · rcases jsLe_total (uptimeOf b) (uptimeOf a) with hu | hu
      · exact Or.inl (Or.inr ⟨h, hu⟩)
      · exact Or.inr (Or.inr ⟨h.symm, hu⟩)
    · exact Or.inr (Or.inl h)

instance : IsTotal NodeInfo multiLe :=
  ⟨fun a b => by
    rw [multiLe_iff_key, multiLe_iff_key]
    exact multiKeyLe_total a b⟩

instance : IsTotal NodeInfo sameLe :=
  ⟨fun a b => by
    rw [sameLe_iff_key, sameLe_iff_key]
    exact sameKeyLe_total a b⟩

instance : IsTrans NodeInfo multiLe :=
  ⟨fun a b c hab hbc => by
    rw [multiLe_iff_key] at hab hbc ⊢
    unfold multiKeyLe at hab hbc ⊢
    cases ha : a.upgradeOrder <;> cases hb : b.upgradeOrder <;> cases hc : c.upgradeOrder <;>
      simp_all
    case some.some.some oa ob oc =>
      rcases hab with h1 | ⟨h1, h1u⟩ <;> rcases hbc with h2 | ⟨h2, h2u⟩
      · exact Or.inl (Nat.lt_trans h1 h2)
      · exact Or.inl (h2 ▸ h1)
      · exact Or.inl (h1 ▸ h2)
      · exact Or.inr ⟨h1.trans h2, jsLe_trans h2u h1u⟩⟩

instance : IsTrans NodeInfo sameLe :=
  ⟨fun a b c hab hbc => by
    rw [sameLe_iff_key] at hab hbc ⊢
    unfold sameKeyLe at hab hbc ⊢
    cases ha : a.upgradeOrder <;> cases hb : b.upgradeOrder <;> cases hc : c.upgradeOrder <;>
      simp_all
    case some.some.some oa ob oc =>
      rcases hab with h1 | ⟨h1, h1u⟩ <;> rcases hbc with h2 | ⟨h2, h2u⟩
      · exact Or.inl (Nat.lt_trans h1 h2)
      · exact Or.inl (h2 ▸ h1)
      · exact Or.inl (h1 ▸ h2)
      · exact Or.inr ⟨h1.trans h2, jsLe_trans h2u h1u⟩⟩

theorem assignSeq_map_info : ∀ (k : Nat) (l : List NodeInfo),
    (assignSeq k l).map (·.info) = l
  | _, [] => rfl
  | k, n :: rest => by
    unfold assignSeq
    cases hn : n.upgradeOrder <;> simp [assignSeq_map_info _ rest]

theorem mem_assignSeq_null_iff : ∀ (k : Nat) (l : List NodeInfo),
    ∀ x ∈ assignSeq k l, (x.info.upgradeOrder = none ↔ x.sequentialOrder = none)
  | _, [], x, hx => by simp [assignSeq] at hx
  | k, n :: rest, x, hx => by
    unfold assignSeq at hx
    cases hn : n.upgradeOrder with
    | none =>
      rw [hn] at hx
      rcases List.mem_cons.mp hx with he | hm
      · subst he
        simp [hn]
      · exact mem_assignSeq_null_iff k rest x hm
    | some t =>
      rw [hn] at hx
      rcases List.mem_cons.mp hx with he | hm
      · subst he
        simp [hn]
      · exact mem_assignSeq_null_iff (k + 1) rest x hm

theorem mem_assignSeq_info : ∀ (k : Nat) (l : List NodeInfo),
    ∀ x ∈ assignSeq k l, x.info ∈ l := by
  intro k l x hx
  have := assignSeq_map_info k l
  rw [← this]
  exact List.mem_map.mpr ⟨x, hx, rfl⟩

theorem assignSeq_filterMap : ∀ (k : Nat) (l : List NodeInfo),
    (assignSeq k l).filterMap (·.sequentialOrder) =
      List.range' (k + 1) (l.countP fun n => n.upgradeOrder.isSome)
  | _, [] => by simp [assignSeq]
  | k, n :: rest => by
    unfold assignSeq
    cases hn : n.upgradeOrder with
    | none =>
      rw [List.countP_cons_of_neg _ _ (by simp [hn])]
      simpa using assignSeq_filterMap k rest
    | some t =>
      rw [List.countP_cons_of_pos _ _ (by simp [hn])]
      simp only [List.filterMap_cons]
      rw [List.range'_succ]
      simpa using assignSeq_filterMap (k + 1) rest

theorem annotate_version_map (rows : List NodeInfo) :
    (annotateNodes rows).map (·.version) = rows.map (·.version) := by
  unfold annotateNodes
  simp [List.map_map]

theorem compareVersions_self (v : String) : compareVersions v v = 0 :=
  compareSegs_eq_zero_of_getD_eq fun _ => rfl

theorem calculateUpgradeOrder_null_baseline (n : NodeInfo) :
    calculateUpgradeOrder n none = some (calculateUpgradeOrder.roleTier n.nodeRole) := by
  simp [calculateUpgradeOrder, strTruthy]

theorem insertionSort_pair (r : NodeInfo → NodeInfo → Prop) [DecidableRel r]
    (a b : NodeInfo) :
    List.insertionSort r [a, b] = if r a b then [a, b] else [b, a] := by
  by_cases h : r a b <;> simp [List.insertionSort, List.orderedInsert, h]

theorem nodesWithSequentialOrder_same_eq (nodes : List NodeInfo)
    (hsame : ((nodes.map (·.version)).dedup).length = 1) :
    nodesWithSequentialOrder nodes =
      assignSeq 0 (List.insertionSort sameLe
        (nodes.map fun n => { n with upgradeOrder := calculateUpgradeOrder n none })) := by
  show (if ((nodes.map (·.version)).dedup).length = 1 then
      assignSeq 0 (List.insertionSort sameLe
        (nodes.map fun n => { n with upgradeOrder := calculateUpgradeOrder n none }))
    else assignSeq 0 (List.insertionSort multiLe nodes)) = _
  rw [if_pos hsame]

theorem nodesWithSequentialOrder_multi_eq (nodes : List NodeInfo)
    (hmulti : ((nodes.map (·.version)).dedup).length ≠ 1) :
    nodesWithSequentialOrder nodes =
      assignSeq 0 (List.insertionSort multiLe nodes) := by
  show (if ((nodes.map (·.version)).dedup).length = 1 then
      assignSeq 0 (List.insertionSort sameLe
        (nodes.map fun n => { n with upgradeOrder := calculateUpgradeOrder n none }))
    else assignSeq 0 (List.insertionSort multiLe nodes)) = _
  rw [if_neg hmulti]

/-- C8: when all nodes share one version, `nodesWithSequentialOrder`
recomputes tiers against a null baseline so no tier is null, every node
receives a position (consecutively 1..N in output order, sorted by tier
ascending with uptime descending as tie-break); in particular a hot-role
node and a master-role node at "8.15.0" come out, in either input order, as
(tier 4, position 1) and (tier 7, position 2). -/
theorem nodesWithSequentialOrder_same_version :
    (∀ nodes : List NodeInfo, ((nodes.map (·.version)).dedup).length = 1 →
      (∀ x ∈ nodesWithSequentialOrder nodes,
        x.info.upgradeOrder ≠ none ∧ x.sequentialOrder ≠ none) ∧
      (nodesWithSequentialOrder nodes).filterMap (·.sequentialOrder) =
        List.range' 1 nodes.length ∧
      List.Pairwise (fun a b => sameKeyLe a.info b.info)
        (nodesWithSequentialOrder nodes)) ∧
    (∀ hn mn : NodeInfo, hn.nodeRole = "h" → mn.nodeRole = "m" →
      hn.version = "8.15.0" → mn.version = "8.15.0" →
      ∀ l, (l = [hn, mn] ∨ l = [mn, hn]) →
        nodesWithSequentialOrder l =
          [⟨{ hn with upgradeOrder := some 4 }, some 1⟩,
           ⟨{ mn with upgradeOrder := some 7 }, some 2⟩]) := by
  constructor
  · intro nodes hsame
    rw [nodesWithSequentialOrder_same_eq nodes hsame]
    set L := nodes.map fun n => { n with upgradeOrder := calculateUpgradeOrder n none }
      with hL
    set S := List.insertionSort sameLe L with hS
    have hSperm : S.Perm L := List.perm_insertionSort sameLe L
    have hLsome : ∀ n ∈ L, n.upgradeOrder ≠ none := by
      intro n hn
      obtain ⟨n0, _, rfl⟩ := List.mem_map.mp hn
      simp [calculateUpgradeOrder_null_baseline]
    refine ⟨?_, ?_, ?_⟩
    · intro x hx
      have hinfo : x.info ∈ S := mem_assignSeq_info 0 S x hx
      have hsome : x.info.upgradeOrder ≠ none := hLsome _ (hSperm.subset hinfo)
      refine ⟨hsome, fun hseq => hsome ((mem_assignSeq_null_iff 0 S x hx).mpr hseq)⟩
    · rw [assignSeq_filterMap]
      have hcount : (S.countP fun n => n.upgradeOrder.isSome) = nodes.length := by
        rw [List.Perm.countP_eq _ hSperm]
        rw [List.countP_eq_length.mpr (fun a ha => by
          cases hu : a.upgradeOrder with
          | none => exact absurd hu (hLsome a ha)
          | some t => simp)]
        simp [hL]
      rw [hcount]
    · have hsorted : List.Pairwise sameLe S := List.sorted_insertionSort sameLe L
      have hkey : List.Pairwise sameKeyLe S := hsorted.imp fun h => (sameLe_iff_key _ _).mp h
      have hmap : (assignSeq 0 S).map (·.info) = S := assignSeq_map_info 0 S
      refine List.pairwise_map.mp ?_
      rw [hmap]
      exact hkey
  · intro hn mn hr hm hv1 hv2 l hl
    have ht4 : calculateUpgradeOrder hn none = some 4 := by
      rw [calculateUpgradeOrder_null_baseline, hr]
      decide
    have ht7 : calculateUpgradeOrder mn none = some 7 := by
      rw [calculateUpgradeOrder_null_baseline, hm]
      decide
    have hle : sameLe { hn with upgradeOrder := some 4 } { mn with upgradeOrder := some 7 } := by
      rw [sameLe_iff_key]
      unfold sameKeyLe
      simp only
      exact Or.inl (by omega)
    have hnle : ¬ sameLe { mn with upgradeOrder := some 7 } { hn with upgradeOrder := some 4 } := by
      rw [sameLe_iff_key]
      unfold sameKeyLe
      simp only
      rintro (h | ⟨h, _⟩) <;> omega
    rcases hl with rfl | rfl
    · have hsame : (([hn, mn].map (·.version)).dedup).length = 1 := by
        simp only [List.map_cons, List.map_nil, hv1, hv2]
        decide
      rw [nodesWithSequentialOrder_same_eq _ hsame]
      simp only [List.map_cons, List.map_nil, ht4, ht7]
      rw [insertionSort_pair, if_pos hle]
      simp [assignSeq]
    · have hsame : (([mn, hn].map (·.version)).dedup).length = 1 := by
        simp only [List.map_cons, List.map_nil, hv1, hv2]
        decide
      rw [nodesWithSequentialOrder_same_eq _ hsame]
      simp only [List.map_cons, List.map_nil, ht4, ht7]
      rw [insertionSort_pair, if_neg hnle]
      simp [assignSeq]

/-- Witness for C8: a hot node and a master node at "8.15.0", both input
orders. -/
theorem nodesWithSequentialOrder_same_version_witness :
    (nodesWithSequentialOrder
        [⟨"h", "hot-1", none, "8.15.0", "2h", none⟩,
         ⟨"m", "master-1", none, "8.15.0", "1h", none⟩]).filterMap (·.sequentialOrder) =
      List.range' 1 2 ∧
    nodesWithSequentialOrder
        [⟨"m", "master-1", none, "8.15.0", "1h", none⟩,
         ⟨"h", "hot-1", none, "8.15.0", "2h", none⟩] =
      [⟨⟨"h", "hot-1", none, "8.15.0", "2h", some 4⟩, some 1⟩,
       ⟨⟨"m", "master-1", none, "8.15.0", "1h", some 7⟩, some 2⟩] :=
  ⟨(nodesWithSequentialOrder_same_version.1
      [⟨"h", "hot-1", none, "8.15.0", "2h", none⟩,
       ⟨"m", "master-1", none, "8.15.0", "1h", none⟩] (by decide)).2.1,
   nodesWithSequentialOrder_same_version.2
     ⟨"h", "hot-1", none, "8.15.0", "2h", none⟩
     ⟨"m", "master-1", none, "8.15.0", "1h", none⟩
     rfl rfl rfl rfl _ (Or.inr rfl)⟩

theorem strTruthy_of_ne {s : String} (h : s ≠ "") : strTruthy (some s) = true := by
  simp only [strTruthy, Bool.not_eq_true']
  rw [Bool.eq_false_iff]
  intro he
  exact h ((String.isEmpty_iff s).mp he)

/-- C7: with the node set spanning several versions, the pipeline
`getNodes` → `nodesWithSequentialOrder` gives every node at the computed
highest version a null tier and a null sequential position; null-tier nodes
sort before the rest, the rest by tier ascending with uptime descending as
tie-break; and the non-null-tier nodes receive consecutive positions 1..N. -/
theorem nodesWithSequentialOrder_multi_version (rows : List NodeInfo)
    (hmulti : ((rows.map (·.version)).dedup).length ≠ 1) :
    (∀ x ∈ nodesWithSequentialOrder (annotateNodes rows), x.info.version ≠ "" →
      some x.info.version =
        getHighestVersion ((rows.map (·.version)).filter (fun v => !v.isEmpty)) →
      x.info.upgradeOrder = none ∧ x.sequentialOrder = none) ∧
    (∀ x ∈ nodesWithSequentialOrder (annotateNodes rows),
      (x.info.upgradeOrder = none ↔ x.sequentialOrder = none)) ∧
    List.Pairwise (fun a b => multiKeyLe a.info b.info)
      (nodesWithSequentialOrder (annotateNodes rows)) ∧
    (nodesWithSequentialOrder (annotateNodes rows)).filterMap (·.sequentialOrder) =
      List.range' 1 ((nodesWithSequentialOrder (annotateNodes rows)).countP
        fun x => x.info.upgradeOrder.isSome) := by
  have hmulti' : (((annotateNodes rows).map (·.version)).dedup).length ≠ 1 := by
    rw [annotate_version_map]
    exact hmulti
  rw [nodesWithSequentialOrder_multi_eq _ hmulti']
  set A := annotateNodes rows with hA
  set S := List.insertionSort multiLe A with hS
  have hSperm : S.Perm A := List.perm_insertionSort multiLe A
  have hnull : ∀ x ∈ assignSeq 0 S, x.info.version ≠ "" →
      some x.info.version =
        getHighestVersion ((rows.map (·.version)).filter (fun v => !v.isEmpty)) →
      x.info.upgradeOrder = none ∧ x.sequentialOrder = none := by
    intro x hx hver hhv
    have hinfoS : x.info ∈ S := mem_assignSeq_info 0 S x hx
    have hinfoA : x.info ∈ A := hSperm.subset hinfoS
    rw [hA] at hinfoA
    unfold annotateNodes at hinfoA
    obtain ⟨n0, hn0, hxeq⟩ := List.mem_map.mp hinfoA
    have hverEq : x.info.version = n0.version := by rw [← hxeq]
    have hupg : x.info.upgradeOrder =
        calculateUpgradeOrder n0
          (getHighestVersion ((rows.map (·.version)).filter (fun v => !v.isEmpty))) := by
      rw [← hxeq]
    have hnone : x.info.upgradeOrder = none := by
      rw [hupg, ← hhv]
      unfold calculateUpgradeOrder
      rw [if_pos ⟨strTruthy_of_ne hver, strTruthy_of_ne (hverEq ▸ hver)⟩]
      rw [if_pos]
      rw [hverEq]
      simp [compareVersions_self]
    exact ⟨hnone, (mem_assignSeq_null_iff 0 S x hx).mp hnone⟩
  refine ⟨hnull, mem_assignSeq_null_iff 0 S, ?_, ?_⟩
  · have hsorted : List.Pairwise multiLe S := List.sorted_insertionSort multiLe A
    have hkey : List.Pairwise multiKeyLe S := hsorted.imp fun h => (multiLe_iff_key _ _).mp h
    have hmap : (assignSeq 0 S).map (·.info) = S := assignSeq_map_info 0 S
    refine List.pairwise_map.mp ?_
    rw [hmap]
    exact hkey
  · rw [assignSeq_filterMap]
    have hmap : (assignSeq 0 S).map (·.info) = S := assignSeq_map_info 0 S
    have hcount : ((assignSeq 0 S).countP fun x => x.info.upgradeOrder.isSome) =
        S.countP fun n => n.upgradeOrder.isSome := by
      conv_rhs => rw [← hmap]
      rw [List.countP_map]
      rfl
    rw [hcount]

/-- Witness for C7 at the spec's example: two nodes at "8.15.0" and one at
"8.19.0" — the "8.19.0" node is unnumbered and sorts first, the other two
get positions 1 and 2. -/
theorem nodesWithSequentialOrder_multi_version_witness :
    nodesWithSequentialOrder (annotateNodes
        [⟨"h", "n1", none, "8.15.0", "2h", none⟩,
         ⟨"m", "n2", none, "8.15.0", "1h", none⟩,
         ⟨"h", "n3", none, "8.19.0", "5h", none⟩]) =
      [⟨⟨"h", "n3", none, "8.19.0", "5h", none⟩, none⟩,
       ⟨⟨"h", "n1", none, "8.15.0", "2h", some 4⟩, some 1⟩,
       ⟨⟨"m", "n2", none, "8.15.0", "1h", some 7⟩, some 2⟩] ∧
    ((⟨⟨"h", "n3", none, "8.19.0", "5h", none⟩, none⟩ : OrderedNode).info.upgradeOrder = none ∧
     (⟨⟨"h", "n3", none, "8.19.0", "5h", none⟩, none⟩ : OrderedNode).sequentialOrder = none) :=
  ⟨by decide,
   (nodesWithSequentialOrder_multi_version
      [⟨"h", "n1", none, "8.15.0", "2h", none⟩,
       ⟨"m", "n2", none, "8.15.0", "1h", none⟩,
       ⟨"h", "n3", none, "8.19.0", "5h", none⟩] (by decide)).1
     ⟨⟨"h", "n3", none, "8.19.0", "5h", none⟩, none⟩
     (by decide) (by decide) (by decide)⟩
